import Mathlib

/-!
Verification development for the MDitD ingestion and orchestration pipeline.

Strings are modelled as `List Char` (Python unicode strings). Filesystem
directories are modelled as lists of path components (`List (List Char)`)
and the set of files existing in a directory as a list of filenames.
Machine-level concerns (actual I/O, the external MarkItDown engine) are
modelled as explicit parameters or oracles.
-/

namespace MDitD

/-! ### Configuration constants (defaults from `src/settings.py`) -/

/-- Default `max_files_count` from `src/settings.py`. -/
def maxFilesCount : Nat := 20

/-- Default `max_file_size` (100 MB) from `src/settings.py`. -/
def maxFileSize : Nat := 104857600

/-- Default `max_total_size` (500 MB) from `src/settings.py`. -/
def maxTotalSize : Nat := 524288000

/-- Default `max_concurrent_files` from `src/settings.py`. -/
def maxConcurrentFiles : Nat := 4

/-- Default `max_output_dir_length` from `src/settings.py`. -/
def maxOutputDirLength : Nat := 100

/-! ### Filename sanitization (`FileHandler._sanitize_filename`) -/

/-- Characters replaced by the regex `[<>:"/\\|?*]` in step 2 of
`_sanitize_filename` (src/utils/file_handler.py line 80). -/
def forbiddenChar (c : Char) : Bool :=
  c = '<' || c = '>' || c = ':' || c = '"' || c = '/' || c = '\\' ||
  c = '|' || c = '?' || c = '*'

/-- Characters removed by the regex `[\x00-\x1f\x7f-\x9f]` in step 3 of
`_sanitize_filename` (src/utils/file_handler.py line 83). -/
def controlChar (c : Char) : Bool :=
  decide (c.toNat ≤ 31) || (decide (127 ≤ c.toNat) && decide (c.toNat ≤ 159))

/-- Characters stripped by `filename.strip(". ")` in step 4 of
`_sanitize_filename` (src/utils/file_handler.py line 86). -/
def dotSpace (c : Char) : Bool :=
  c = '.' || c = ' '

/-- Model of `os.path.basename` on POSIX: everything after the last `/`.
On Windows the code would additionally split at backslashes and drive
prefixes, but step 2 replaces every remaining `\` and `:` with `_`, so
none of the verified properties depends on this platform choice. -/
def basename (s : List Char) : List Char :=
  (s.reverse.takeWhile (fun c => !(c = '/' : Bool))).reverse

/-- Step 2 of `_sanitize_filename`: replace each forbidden character by `_`. -/
def replaceForbidden (s : List Char) : List Char :=
  s.map (fun c => if forbiddenChar c then '_' else c)

/-- Step 3 of `_sanitize_filename`: delete control characters. -/
def removeControl (s : List Char) : List Char :=
  s.filter (fun c => !controlChar c)

/-- Step 4 of `_sanitize_filename`: `filename.strip(". ")`, removing leading
and trailing dots and spaces. -/
def stripDS (s : List Char) : List Char :=
  (((s.dropWhile dotSpace).reverse.dropWhile dotSpace)).reverse

/-- Decompose a name at its last dot: `some (a, b)` with `s = a ++ "." ++ b`
and no dot in `b`; `none` when `s` has no dot. Mirrors `str.rfind(".")`
used by `pathlib.PurePath.stem` and `.suffix`. -/
def splitAtLastDot (s : List Char) : Option (List Char × List Char) :=
  let rev := s.reverse
  let bRev := rev.takeWhile (fun c => !(c = '.' : Bool))
  match rev.dropWhile (fun c => !(c = '.' : Bool)) with
  | [] => none
  | _ :: aRev => some (aRev.reverse, bRev.reverse)

/-- Model of `pathlib.PurePath(s).stem` for a separator-free name: the part
before the last dot, provided that dot is neither the first nor the last
character; otherwise the whole name. -/
def pyStem (s : List Char) : List Char :=
  match splitAtLastDot s with
  | some (a, b) => if a.isEmpty || b.isEmpty then s else a
  | none => s

/-- Model of `pathlib.PurePath(s).suffix` for a separator-free name: the
last dot and everything after it, under the same validity condition as
`pyStem`; otherwise empty. -/
def pySuffix (s : List Char) : List Char :=
  match splitAtLastDot s with
  | some (a, b) => if a.isEmpty || b.isEmpty then [] else '.' :: b
  | none => []

/-- Uppercasing used by `Path(filename).stem.upper()`; ASCII letters only,
which is all the reserved-name comparison can distinguish. -/
def upperList (s : List Char) : List Char :=
  s.map Char.toUpper

/-- The Windows reserved device names from `_sanitize_filename`
(src/utils/file_handler.py lines 89 to 93). -/
def reservedNames : List (List Char) :=
  ["CON".toList, "PRN".toList, "AUX".toList, "NUL".toList,
   "COM1".toList, "COM2".toList, "COM3".toList, "COM4".toList,
   "COM5".toList, "COM6".toList, "COM7".toList, "COM8".toList,
   "COM9".toList, "LPT1".toList, "LPT2".toList, "LPT3".toList,
   "LPT4".toList, "LPT5".toList, "LPT6".toList, "LPT7".toList,
   "LPT8".toList, "LPT9".toList]

/-- Steps 1 to 4 of `_sanitize_filename`: basename, forbidden-character
replacement, control-character removal, dot and space stripping. -/
def sanitizeSteps14 (s : List Char) : List Char :=
  stripDS (removeControl (replaceForbidden (basename s)))

/-- Step 5 of `_sanitize_filename`: prepend `file_` when the stem,
uppercased, is a reserved device name. -/
def reservedStep (s : List Char) : List Char :=
  if reservedNames.contains (upperList (pyStem s)) then "file_".toList ++ s else s

/-- Step 6 of `_sanitize_filename`: when the name is longer than 255
characters, keep the first 200 characters of the stem and the whole
suffix. -/
def truncStep (s : List Char) : List Char :=
  if 255 < s.length then (pyStem s).take 200 ++ pySuffix s else s

/-- Step 7 of `_sanitize_filename`: fall back to `unnamed_file` when the
name has become empty. -/
def fallbackStep (s : List Char) : List Char :=
  if s.isEmpty then "unnamed_file".toList else s

/-- The name entering the truncation step: steps 1 to 5 of
`_sanitize_filename`. -/
def sanitizePreTrunc (s : List Char) : List Char :=
  reservedStep (sanitizeSteps14 s)

/-- Full model of `FileHandler._sanitize_filename`
(src/utils/file_handler.py lines 74 to 109). -/
def sanitize (s : List Char) : List Char :=
  fallbackStep (truncStep (sanitizePreTrunc s))

/-! ### Decimal rendering of the collision counter (`f"{name}_{counter}{ext}"`) -/

/-- Decimal digit character for a value below ten. -/
def digitChar (d : Nat) : Char :=
  match d with
  | 0 => '0' | 1 => '1' | 2 => '2' | 3 => '3' | 4 => '4'
  | 5 => '5' | 6 => '6' | 7 => '7' | 8 => '8' | _ => '9'

/-- Fuel-driven decimal rendering of a natural number. -/
def natToDecAux : Nat → Nat → List Char
  | 0, _ => []
  | fuel + 1, n =>
    if n < 10 then [digitChar n]
    else natToDecAux fuel (n / 10) ++ [digitChar (n % 10)]

/-- Decimal rendering of a natural number, as Python `str(counter)` produces
inside the f-string of the collision loop. -/
def natToDec (n : Nat) : List Char :=
  natToDecAux (n + 1) n

/-- Decimal reading, used only as a proof device to show that `natToDec` is
injective. -/
def fromDec (s : List Char) : Nat :=
  s.foldl (fun a c => 10 * a + (c.toNat - 48)) 0

/-! ### Collision-safe naming (`save_uploaded_file` and `create_output_path`) -/

/-- The k-th candidate name tried by the duplicate-handling loops: the plain
`stem ++ ext` first, then `stem_k ++ ext` for `k = 1, 2, ...`
(src/utils/file_handler.py lines 56 to 63 and 146 to 153). -/
def candidateName (stem ext : List Char) : Nat → List Char
  | 0 => stem ++ ext
  | k + 1 => stem ++ '_' :: (natToDec (k + 1) ++ ext)

/-- Fuel-driven model of the `while path.exists()` loops: starting at
candidate index `k`, return the first candidate that does not exist. -/
def findFree (existsP : List Char → Bool) (stem ext : List Char) :
    Nat → Nat → List Char
  | 0, k => candidateName stem ext k
  | fuel + 1, k =>
    if existsP (candidateName stem ext k) then
      findFree existsP stem ext fuel (k + 1)
    else
      candidateName stem ext k

/-- Collision-safe name in a directory whose existing entries are `names`.
The fuel `names.length + 1` suffices: the candidates are pairwise distinct,
so one of the first `names.length + 1` is not among the existing entries. -/
def nextFreeName (names : List (List Char)) (stem ext : List Char) : List Char :=
  findFree (fun nm => names.contains nm) stem ext (names.length + 1) 0

/-- Name under which `save_uploaded_file` stores an upload: the sanitized
filename, made collision-safe against the entries of the uploads directory
(src/utils/file_handler.py lines 41 to 63). -/
def savedFilename (uploadsEntries : List (List Char)) (raw : List Char) : List Char :=
  let s := sanitize raw
  nextFreeName uploadsEntries (pyStem s) (pySuffix s)

/-! ### Path resolution and containment (`create_output_path`) -/

/-- Split a string into path components at `/`. -/
def splitSlashAux : List Char → List Char → List (List Char)
  | [], acc => [acc.reverse]
  | c :: cs, acc =>
    if c = '/' then acc.reverse :: splitSlashAux cs []
    else splitSlashAux cs (c :: acc)

/-- Components of a POSIX path string. -/
def splitSlash (s : List Char) : List (List Char) :=
  splitSlashAux s []

/-- One component of lexical resolution: empty components and `.` are
skipped, `..` pops the last component (staying at the root when already
there, as `Path.resolve` does), and anything else is appended. -/
def stepComp (stack : List (List Char)) (c : List Char) : List (List Char) :=
  if c.isEmpty then stack
  else if c = ['.'] then stack
  else if c = ['.', '.'] then stack.dropLast
  else stack ++ [c]

/-- Model of `Path(s).resolve()` relative to the components `cwd` of the
current working directory: absolute strings restart at the root, relative
ones extend `cwd`, and `.` / `..` are resolved lexically. Symlinks are not
modelled; the spec only requires a canonical, dot-resolved comparison. -/
def resolveFrom (cwd : List (List Char)) (s : List Char) : List (List Char) :=
  let start := if s.head? = some '/' then [] else cwd
  (splitSlash s).foldl stepComp start

/-- Componentwise prefix test: `relative_to(base)` succeeds exactly when
`base` is an initial segment of the resolved target (equality included). -/
def isPfxComp : List (List Char) → List (List Char) → Bool
  | [], _ => true
  | _ :: _, [] => false
  | a :: as, b :: bs => if a = b then isPfxComp as bs else false

/-- Error raised by `create_output_path` when the requested directory is
outside the allowed base (the `ValueError` at src/utils/file_handler.py
line 134). -/
inductive PathError where
  | pathEscapesRoot
  deriving DecidableEq, Repr

/-- A resolved output target: destination directory components and the
collision-free markdown filename inside it. -/
structure OutputTarget where
  dir : List (List Char)
  name : List Char
  deriving DecidableEq, Repr

/-- Model of `FileHandler.create_output_path`
(src/utils/file_handler.py lines 111 to 153). `cwd` is the current working
directory, `defaultDir` the configured default output directory (`vystup`),
`existing` the filenames already present in the target directory, and
`outputDir` the optional caller-supplied directory (with `none` for Python
`None`; the empty string is falsy in Python, so both skip the containment
check and use the default). -/
def createOutputPath (cwd : List (List Char)) (defaultDir : List Char)
    (existing : List (List Char)) (original : List Char)
    (outputDir : Option (List Char)) : Except PathError OutputTarget :=
  let mdName : List Char := nextFreeName existing (pyStem (basename original)) ".md".toList
  match outputDir with
  | none => .ok ⟨resolveFrom cwd defaultDir, mdName⟩
  | some d =>
    if d.isEmpty then .ok ⟨resolveFrom cwd defaultDir, mdName⟩
    else
      let target := resolveFrom cwd d
      if isPfxComp cwd target then .ok ⟨target, mdName⟩
      else .error .pathEscapesRoot

/-! ### Batch validation (`upload_files`, src/main.py lines 224 to 282) -/

/-- Substring test used to model `pattern in output_dir`. -/
def isPfxChars : List Char → List Char → Bool
  | [], _ => true
  | _ :: _, [] => false
  | a :: as, b :: bs => if a = b then isPfxChars as bs else false

/-- Python `pattern in s` for nonempty patterns: some suffix of `s` starts
with the pattern. -/
def containsSub (s p : List Char) : Bool :=
  match s with
  | [] => p.isEmpty
  | _ :: rest => isPfxChars p s || containsSub rest p

/-- The `forbidden_output_dir_patterns` list from `src/settings.py`. -/
def forbiddenOutputDirPatterns : List (List Char) :=
  ["..".toList, "\\".toList, "/".toList, ":".toList, "*".toList,
   "?".toList, "\"".toList, "<".toList, ">".toList, "|".toList]

/-- Python `str.strip()`: ASCII whitespace at either end removed. -/
def isSpaceChar (c : Char) : Bool :=
  c = ' ' || c = '\t' || c = '\n' || c = '\r' || c.toNat = 11 || c.toNat = 12

/-- Whitespace stripping used by `output_dir.strip().startswith(".")`. -/
def stripSpaces (s : List Char) : List Char :=
  (((s.dropWhile isSpaceChar).reverse.dropWhile isSpaceChar)).reverse

/-- Batch-level rejections raised by `upload_files` before any per-file
work (HTTP 400 and 413 responses in src/main.py lines 231 to 282). -/
inductive BatchError where
  | emptyBatch
  | tooManyFiles
  | outputDirTooLong
  | outputDirForbiddenPattern (p : List Char)
  | outputDirStartsWithDot
  | fileTooLarge
  | totalTooLarge
  deriving DecidableEq, Repr

/-- Validation of the requested output directory in `upload_files`
(src/main.py lines 244 to 265): skipped entirely for a falsy value, else
length check, forbidden-pattern scan in list order, and the leading-dot
check. Returns `none` when the directory is accepted. -/
def validateOutputDir (outputDir : Option (List Char)) : Option BatchError :=
  match outputDir with
  | none => none
  | some d =>
    if d.isEmpty then none
    else if maxOutputDirLength < d.length then some .outputDirTooLong
    else
      match forbiddenOutputDirPatterns.find? (fun p => containsSub d p) with
      | some p => some (.outputDirForbiddenPattern p)
      | none =>
        if (stripSpaces d).head? = some '.' then some .outputDirStartsWithDot
        else none

/-- One uploaded file as seen by `upload_files`: the (possibly missing)
filename and the (possibly unknown) declared size. -/
structure UploadMeta where
  filename : Option (List Char)
  size? : Option Nat
  deriving DecidableEq, Repr

/-- Declared size with Python truthiness: `None` and `0` both count as
absent in the pre-validation loop. -/
def declaredSize (f : UploadMeta) : Nat :=
  match f.size? with
  | some s => s
  | none => 0

/-- The per-file size pre-check of `upload_files` (src/main.py lines 267 to
282): the first file whose truthy declared size exceeds `max_file_size`
triggers a 413, then the total of the declared sizes is compared with
`max_total_size`. -/
def preSizeCheck (files : List UploadMeta) : Option BatchError :=
  match files.find? (fun f => decide (maxFileSize < declaredSize f)) with
  | some _ => some .fileTooLarge
  | none =>
    if maxTotalSize < (files.map declaredSize).sum then some .totalTooLarge
    else none

/-! ### Concurrent batch processing (`upload_files`, src/main.py lines 284 to 318) -/

/-- Result reported for one file, mirroring the dictionaries produced by
`process_single_file_async`. -/
structure FileResult where
  filename : Option (List Char)
  success : Bool
  error? : Option (List Char)
  output? : Option (List Char)
  deriving DecidableEq, Repr

/-- Outcome of one worker task as observed by `asyncio.gather(...,
return_exceptions=True)`: either a `FileResult` dictionary or a raised
exception. -/
inductive TaskOutcome where
  | ok (r : FileResult)
  | exn (msg : List Char)
  deriving DecidableEq, Repr

/-- Reassembly of one gathered outcome (src/main.py lines 300 to 311): an
exception at position `i` is replaced by an error result naming
`files[i].filename`. -/
def assembleOne (f : UploadMeta) (t : TaskOutcome) : FileResult :=
  match t with
  | .ok r => r
  | .exn msg =>
    ⟨f.filename, false,
     some ("Unexpected error during concurrent processing: ".toList ++ msg), none⟩

/-- Aggregated response of `upload_files` (src/main.py lines 313 to 318). -/
structure BatchResponse where
  results : List FileResult
  totalFiles : Nat
  successful : Nat
  failed : Nat
  deriving DecidableEq, Repr

/-- Model of the `upload_files` coordinator: batch validation in source
order, then one task per file, gathered in task order and reassembled.
The behaviour of `process_single_file_async` for the task at position `i`
is abstracted by the oracle `outcomes i`, which may be a result or a raised
exception; `asyncio.gather` preserves task order, so the i-th entry of
`results` comes from the i-th file. -/
def uploadFiles (files : List UploadMeta) (outputDir : Option (List Char))
    (outcomes : Nat → TaskOutcome) : Except BatchError BatchResponse :=
  if files.length = 0 then .error .emptyBatch
  else if maxFilesCount < files.length then .error .tooManyFiles
  else
    match validateOutputDir outputDir with
    | some e => .error e
    | none =>
      match preSizeCheck files with
      | some e => .error e
      | none =>
        let results := files.enum.map (fun p => assembleOne p.2 (outcomes p.1))
        .ok ⟨results, files.length,
             (results.filter (fun r => r.success)).length,
             (results.filter (fun r => !r.success)).length⟩

/-! ### Worker-slot bound (`asyncio.Semaphore(min(max_concurrent, len(files)))`) -/

/-- Semaphore capacity chosen by `upload_files` (src/main.py line 286). -/
def semaphoreCapacity (batchSize : Nat) : Nat :=
  min maxConcurrentFiles batchSize

/-- Counting abstraction of the worker pool: tasks not yet admitted by the
semaphore, tasks currently holding a slot, and finished tasks. -/
structure PoolState where
  pending : Nat
  running : Nat
  finished : Nat
  deriving DecidableEq, Repr

/-- Interleaving semantics of `process_with_semaphore`: a pending task may
start only while fewer than `cap` tasks hold the semaphore, and any running
task may finish, in any order. -/
inductive PoolStep (cap : Nat) : PoolState → PoolState → Prop
  | start (p r d : Nat) : 0 < p → r < cap →
      PoolStep cap ⟨p, r, d⟩ ⟨p - 1, r + 1, d⟩
  | finish (p r d : Nat) : 0 < r →
      PoolStep cap ⟨p, r, d⟩ ⟨p, r - 1, d + 1⟩

/-- States reachable from the initial state of a batch of `n` tasks. -/
def PoolReachable (cap n : Nat) (s : PoolState) : Prop :=
  Relation.ReflTransGen (PoolStep cap) ⟨n, 0, 0⟩ s

/-! ### Conversion adapter handling (`DocumentConverter.convert_document`) -/

/-- What `self.markitdown.convert(input_path)` may give back, as seen by the
`try` block: a raised exception, Python `None`, or a result object. The
field models `hasattr(result, "text_content")` together with the attribute
value: `none` when the attribute is missing. -/
structure AdapterResult where
  text? : Option (List Char)
  deriving DecidableEq, Repr

/-- Adapter behaviour: raise, or return an optional result object. -/
inductive AdapterOutcome where
  | raises (msg : List Char)
  | returns (res : Option AdapterResult)
  deriving DecidableEq, Repr

/-- The dictionary returned by `convert_document`. -/
structure ConvResult where
  success : Bool
  content : Option (List Char)
  error? : Option (List Char)
  deriving DecidableEq, Repr

/-- Model of `DocumentConverter.convert_document`
(src/utils/converter.py lines 60 to 116): missing file and unsupported
format are rejected first; then an adapter exception becomes a failure
carrying its message, a falsy or attribute-less result becomes the
`MarkItDown returned empty result` failure, and any result carrying a
`text_content` attribute — the empty string included — becomes a success. -/
def convertDocument (fileExists supported : Bool) (outcome : AdapterOutcome) :
    ConvResult :=
  if !fileExists then ⟨false, none, some "File not found".toList⟩
  else if !supported then ⟨false, none, some "Unsupported file format".toList⟩
  else
    match outcome with
    | .raises msg => ⟨false, none, some msg⟩
    | .returns none => ⟨false, none, some "MarkItDown returned empty result".toList⟩
    | .returns (some r) =>
      match r.text? with
      | some t => ⟨true, some t, none⟩
      | none => ⟨false, none, some "MarkItDown returned empty result".toList⟩

/-! ### Scoped temporary-file lifecycle (`temporary_file_async`) -/

/-- How the body of the context manager exits: normal return, raised error,
or task cancellation. In Python all three unwind through the `finally`
block of `temporary_file_async`. -/
inductive BodyExit where
  | normal
  | raised
  | cancelled
  deriving DecidableEq, Repr

/-- Removal of a path from the modelled filesystem (`os.remove`). -/
def removePath (fs : List (List Char)) (p : List Char) : List (List Char) :=
  fs.filter (fun q => !(q = p : Bool))

/-- Model of `cleanup_temp_file_async` (src/utils/file_handler.py lines 323
to 340): when the file exists it is removed unless the removal itself
fails, in which case the exception is caught and `False` returned; the
function never raises. Returns the success flag and the filesystem after
the call. -/
def cleanupTempFile (fs : List (List Char)) (p : List Char)
    (removeFails : Bool) : Bool × List (List Char) :=
  if fs.contains p then
    if removeFails then (false, fs) else (true, removePath fs p)
  else (true, fs)

/-- Model of `temporary_file_async` (src/utils/file_handler.py lines 379 to
393) over a filesystem modelled as the list of existing paths: the upload is
staged under its sanitized collision-safe name, the body runs with that
path and may transform the filesystem before exiting in any of the three
ways, and the `finally` block deletes the staged file when it still exists,
converting a failed deletion into a logged warning instead of an error.
Returns the exit seen by the caller, the final filesystem, and whether the
warning was logged. -/
def temporaryFileScope (fs0 : List (List Char)) (raw : List Char)
    (body : List Char → List (List Char) → BodyExit × List (List Char))
    (removeFails : Bool) : BodyExit × List (List Char) × Bool :=
  let temp := savedFilename fs0 raw
  let fs1 := temp :: fs0
  let (exit, fs2) := body temp fs1
  if fs2.contains temp then
    let (ok, fs3) := cleanupTempFile fs2 temp removeFails
    (exit, fs3, !ok)
  else
    (exit, fs2, false)

/-- Characters that survive sanitization: neither forbidden nor control. -/
def safeChar (c : Char) : Bool :=
  !forbiddenChar c && !controlChar c

/-! ### Generic list helper lemmas -/

theorem takeWhile_eq_self_of_all {p : α → Bool} :
    ∀ {l : List α}, (∀ c ∈ l, p c = true) → l.takeWhile p = l
  | [], _ => rfl
  | c :: cs, h => by
    have hc : p c = true := h c (List.mem_cons_self c cs)
    simp only [List.takeWhile_cons, hc, if_true]
    exact congrArg (c :: ·) (takeWhile_eq_self_of_all fun x hx => h x (List.mem_cons_of_mem c hx))

theorem dropWhile_eq_nil_of_all {p : α → Bool} :
    ∀ {l : List α}, (∀ c ∈ l, p c = true) → l.dropWhile p = []
  | [], _ => rfl
  | c :: cs, h => by
    have hc : p c = true := h c (List.mem_cons_self c cs)
    simp only [List.dropWhile_cons, hc, if_true]
    exact dropWhile_eq_nil_of_all fun x hx => h x (List.mem_cons_of_mem c hx)

theorem dropWhile_head?_false {p : α → Bool} :
    ∀ {l : List α} {c : α}, (l.dropWhile p).head? = some c → p c = false
  | [], _, h => by simp at h
  | a :: as, c, h => by
    cases ha : p a with
    | true =>
      rw [List.dropWhile_cons, if_pos (by rw [ha])] at h
      exact dropWhile_head?_false h
    | false =>
      rw [List.dropWhile_cons, if_neg (by rw [ha]; exact Bool.false_ne_true)] at h
      rw [List.head?_cons, Option.some.injEq] at h
      rw [← h]
      exact ha

theorem dropWhile_eq_self_of_head {p : α → Bool} :
    ∀ {l : List α}, (∀ c, l.head? = some c → p c = false) → l.dropWhile p = l
  | [], _ => rfl
  | c :: cs, h => by
    have hc : p c = false := h c rfl
    simp [List.dropWhile_cons, hc]

theorem map_eq_self_of_all {f : α → α} :
    ∀ {l : List α}, (∀ c ∈ l, f c = c) → l.map f = l
  | [], _ => rfl
  | c :: cs, h => by
    have hc := h c (List.mem_cons_self c cs)
    simp only [List.map_cons, hc]
    exact congrArg (c :: ·) (map_eq_self_of_all fun x hx => h x (List.mem_cons_of_mem c hx))

theorem takeWhile_append_of_all {p : α → Bool} :
    ∀ {l₁ l₂ : List α}, (∀ c ∈ l₁, p c = true) →
      (l₁ ++ l₂).takeWhile p = l₁ ++ l₂.takeWhile p
  | [], _, _ => rfl
  | c :: cs, l₂, h => by
    have hc := h c (List.mem_cons_self c cs)
    simp only [List.cons_append, List.takeWhile_cons, hc, if_true]
    exact congrArg (c :: ·) (takeWhile_append_of_all fun x hx => h x (List.mem_cons_of_mem c hx))

theorem dropWhile_append_of_all {p : α → Bool} :
    ∀ {l₁ l₂ : List α}, (∀ c ∈ l₁, p c = true) →
      (l₁ ++ l₂).dropWhile p = l₂.dropWhile p
  | [], _, _ => rfl
  | c :: cs, l₂, h => by
    have hc := h c (List.mem_cons_self c cs)
    simp only [List.cons_append, List.dropWhile_cons, hc, if_true]
    exact dropWhile_append_of_all fun x hx => h x (List.mem_cons_of_mem c hx)

/-! ### Injectivity of the decimal counter rendering -/

theorem digitChar_val : ∀ d, d < 10 → (digitChar d).toNat - 48 = d := by decide

theorem fromDec_append_singleton (xs : List Char) (c : Char) :
    fromDec (xs ++ [c]) = 10 * fromDec xs + (c.toNat - 48) := by
  unfold fromDec
  rw [List.foldl_append]
  rfl

theorem fromDec_natToDecAux : ∀ fuel n, n < fuel → fromDec (natToDecAux fuel n) = n := by
  intro fuel
  induction fuel with
  | zero => intro n h; omega
  | succ f ih =>
    intro n h
    unfold natToDecAux
    by_cases h10 : n < 10
    · simp only [h10, if_true]
      show 10 * 0 + ((digitChar n).toNat - 48) = n
      rw [digitChar_val n h10]
      omega
    · simp only [h10, if_false]
      rw [fromDec_append_singleton, ih (n / 10) (by omega),
        digitChar_val (n % 10) (Nat.mod_lt n (by omega))]
      omega

theorem natToDec_injective : Function.Injective natToDec := by
  intro a b h
  have ha := fromDec_natToDecAux (a + 1) a (Nat.lt_succ_self a)
  have hb := fromDec_natToDecAux (b + 1) b (Nat.lt_succ_self b)
  rw [← ha, ← hb]
  unfold natToDec at h
  rw [h]

/-! ### Distinctness of collision candidates and the pigeonhole argument -/

theorem candidateName_injective (stem ext : List Char) :
    Function.Injective (candidateName stem ext) := by
  intro a b h
  match a, b with
  | 0, 0 => rfl
  | 0, k + 1 =>
    exfalso
    have h' : stem ++ ext = stem ++ '_' :: (natToDec (k + 1) ++ ext) := h
    have hc := List.append_cancel_left h'
    have hl := congrArg List.length hc
    simp at hl
    omega
  | k + 1, 0 =>
    exfalso
    have h' : stem ++ '_' :: (natToDec (k + 1) ++ ext) = stem ++ ext := h
    have hc := List.append_cancel_left h'
    have hl := congrArg List.length hc
    simp at hl
    omega
  | k + 1, j + 1 =>
    have h' : stem ++ '_' :: (natToDec (k + 1) ++ ext)
        = stem ++ '_' :: (natToDec (j + 1) ++ ext) := h
    have h1 := List.append_cancel_left h'
    have h2 := (List.cons.inj h1).2
    have h3 := List.append_cancel_right h2
    exact natToDec_injective h3

theorem exists_free_candidate (names : List (List Char)) (stem ext : List Char) :
    ∃ k, k ≤ names.length ∧ (candidateName stem ext k) ∉ names := by
  by_contra hcon
  push_neg at hcon
  have hsub : (List.range (names.length + 1)).map (candidateName stem ext) ⊆ names := by
    intro x hx
    rw [List.mem_map] at hx
    obtain ⟨k, hk, hce⟩ := hx
    rw [List.mem_range] at hk
    rw [← hce]
    exact hcon k (by omega)
  have hnd : ((List.range (names.length + 1)).map (candidateName stem ext)).Nodup :=
    (List.nodup_range _).map (candidateName_injective stem ext)
  have hsubF : ((List.range (names.length + 1)).map (candidateName stem ext)).toFinset ⊆
      names.toFinset := by
    intro x hx
    rw [List.mem_toFinset] at hx ⊢
    exact hsub hx
  have hcard := Finset.card_le_card hsubF
  rw [List.toFinset_card_of_nodup hnd] at hcard
  have hle := List.toFinset_card_le names
  simp only [List.length_map, List.length_range] at hcard
  omega

theorem findFree_not_exists (existsP : List Char → Bool) (stem ext : List Char) :
    ∀ fuel k, (∃ i, i < fuel ∧ existsP (candidateName stem ext (k + i)) = false) →
      existsP (findFree existsP stem ext fuel k) = false := by
  intro fuel
  induction fuel with
  | zero => intro k h; omega
  | succ f ih =>
    intro k h
    unfold findFree
    by_cases hk : existsP (candidateName stem ext k) = true
    · rw [if_pos hk]
      obtain ⟨i, hif, hfree⟩ := h
      match i, hfree with
      | 0, hfree => rw [Nat.add_zero] at hfree; rw [hk] at hfree; cases hfree
      | j + 1, hfree =>
        exact ih (k + 1) ⟨j, by omega, by rw [show k + 1 + j = k + (j + 1) by omega]; exact hfree⟩
    · rw [Bool.not_eq_true] at hk
      rw [if_neg (by rw [hk]; exact Bool.false_ne_true)]
      exact hk

theorem nextFreeName_not_mem (names : List (List Char)) (stem ext : List Char) :
    names.contains (nextFreeName names stem ext) = false := by
  unfold nextFreeName
  apply findFree_not_exists
  obtain ⟨k, hk, hnm⟩ := exists_free_candidate names stem ext
  refine ⟨k, by omega, ?_⟩
  rw [Nat.zero_add]
  rw [Bool.eq_false_iff]
  intro hc
  rw [List.contains_iff_exists_mem_beq] at hc
  obtain ⟨a, ha, hbeq⟩ := hc
  rw [beq_iff_eq] at hbeq
  exact hnm (hbeq ▸ ha)

theorem nextFreeName_not_mem_prop (names : List (List Char)) (stem ext : List Char) :
    nextFreeName names stem ext ∉ names := by
  intro hmem
  have h := nextFreeName_not_mem names stem ext
  rw [Bool.eq_false_iff] at h
  exact h (List.elem_iff.mpr hmem)

/-! ### Character safety through the sanitization pipeline -/

theorem safeChar_of_replaceForbidden {s : List Char} {c : Char}
    (h : c ∈ replaceForbidden s) : forbiddenChar c = false := by
  unfold replaceForbidden at h
  rw [List.mem_map] at h
  obtain ⟨a, _, ha⟩ := h
  by_cases hfa : forbiddenChar a = true
  · rw [if_pos hfa] at ha
    rw [← ha]
    decide
  · rw [if_neg hfa] at ha
    rw [← ha]
    exact Bool.not_eq_true _ ▸ hfa

theorem mem_of_mem_removeControl {s : List Char} {c : Char}
    (h : c ∈ removeControl s) : c ∈ s :=
  List.mem_of_mem_filter h

theorem safeChar_of_removeControl {s : List Char} {c : Char}
    (h : c ∈ removeControl (replaceForbidden s)) : safeChar c = true := by
  unfold removeControl at h
  rw [List.mem_filter] at h
  unfold safeChar
  rw [safeChar_of_replaceForbidden h.1, h.2]
  rfl

theorem mem_of_mem_stripDS {s : List Char} {c : Char} (h : c ∈ stripDS s) : c ∈ s := by
  unfold stripDS at h
  rw [List.mem_reverse] at h
  have h1 := (List.dropWhile_suffix _).subset h
  rw [List.mem_reverse] at h1
  have h2 := (List.dropWhile_suffix _).subset h1
  exact h2

theorem safeChar_sanitizeSteps14 {x : List Char} {c : Char}
    (h : c ∈ sanitizeSteps14 x) : safeChar c = true :=
  safeChar_of_removeControl (mem_of_mem_stripDS h)

/-! ### Decomposition at the last dot -/

theorem splitAtLastDot_eq_some {s a b : List Char}
    (h : splitAtLastDot s = some (a, b)) :
    s = a ++ '.' :: b ∧ ∀ c ∈ b, (c = '.' : Bool) = false := by
  simp only [splitAtLastDot] at h
  cases hd : s.reverse.dropWhile (fun c => !(c = '.' : Bool)) with
  | nil => rw [hd] at h; cases h
  | cons d aRev =>
    rw [hd] at h
    rw [Option.some.injEq, Prod.mk.injEq] at h
    obtain ⟨ha, hb⟩ := h
    have hdot : (!(d = '.' : Bool)) = false :=
      dropWhile_head?_false (p := fun c => !(c = '.' : Bool)) (l := s.reverse)
        (by rw [hd]; rfl)
    have hd' : d = '.' := by
      by_cases hc : d = '.'
      · exact hc
      · exfalso
        rw [decide_eq_false hc] at hdot
        simp at hdot
    subst hd'
    constructor
    · have hsplit := List.takeWhile_append_dropWhile
        (p := fun c => !(c = '.' : Bool)) (l := s.reverse)
      rw [hd] at hsplit
      have hrev := congrArg List.reverse hsplit
      rw [List.reverse_reverse] at hrev
      rw [← hrev, ← ha, ← hb]
      simp
    · intro c hc
      rw [← hb, List.mem_reverse] at hc
      have hp := List.mem_takeWhile_imp hc
      by_cases hcc : c = '.'
      · rw [decide_eq_true hcc] at hp; simp at hp
      · rw [decide_eq_false hcc]

theorem splitAtLastDot_eq_none {s : List Char}
    (h : splitAtLastDot s = none) : ∀ c ∈ s, (c = '.' : Bool) = false := by
  simp only [splitAtLastDot] at h
  cases hd : s.reverse.dropWhile (fun c => !(c = '.' : Bool)) with
  | cons d aRev => rw [hd] at h; cases h
  | nil =>
    intro c hc
    rw [List.dropWhile_eq_nil_iff] at hd
    have hcr := hd c (List.mem_reverse.mpr hc)
    simpa using hcr

theorem splitAtLastDot_of_no_dot {s : List Char}
    (h : ∀ c ∈ s, (c = '.' : Bool) = false) : splitAtLastDot s = none := by
  simp only [splitAtLastDot]
  have hd : s.reverse.dropWhile (fun c => !(c = '.' : Bool)) = [] := by
    apply dropWhile_eq_nil_of_all
    intro c hc
    rw [List.mem_reverse] at hc
    rw [h c hc]
    rfl
  rw [hd]

theorem splitAtLastDot_spec_eq {a b : List Char}
    (hb : ∀ c ∈ b, (c = '.' : Bool) = false) :
    splitAtLastDot (a ++ '.' :: b) = some (a, b) := by
  simp only [splitAtLastDot]
  have hrev : (a ++ '.' :: b).reverse = b.reverse ++ '.' :: a.reverse := by
    simp
  have hall : ∀ c ∈ b.reverse, (!(c = '.' : Bool)) = true := by
    intro c hc
    rw [List.mem_reverse] at hc
    rw [hb c hc]
    rfl
  have htake : (a ++ '.' :: b).reverse.takeWhile (fun c => !(c = '.' : Bool))
      = b.reverse := by
    rw [hrev, takeWhile_append_of_all hall, List.takeWhile_cons]
    simp
  have hdrop : (a ++ '.' :: b).reverse.dropWhile (fun c => !(c = '.' : Bool))
      = '.' :: a.reverse := by
    rw [hrev, dropWhile_append_of_all hall, List.dropWhile_cons]
    simp
  rw [htake, hdrop]
  simp

theorem pyStem_append_pySuffix (s : List Char) : pyStem s ++ pySuffix s = s := by
  cases hd : splitAtLastDot s with
  | none => simp [pyStem, pySuffix, hd]
  | some ab =>
    obtain ⟨a, b⟩ := ab
    obtain ⟨hs, _⟩ := splitAtLastDot_eq_some hd
    by_cases he : (a.isEmpty || b.isEmpty) = true
    · simp [pyStem, pySuffix, hd, he]
    · rw [Bool.not_eq_true] at he
      simp only [pyStem, pySuffix, hd, he, Bool.false_eq_true, if_false]
      exact hs.symm

theorem mem_of_mem_pyStem {s : List Char} {c : Char} (h : c ∈ pyStem s) : c ∈ s := by
  rw [← pyStem_append_pySuffix s, List.mem_append]
  exact Or.inl h

theorem mem_of_mem_pySuffix {s : List Char} {c : Char} (h : c ∈ pySuffix s) : c ∈ s := by
  rw [← pyStem_append_pySuffix s, List.mem_append]
  exact Or.inr h

/-! ### Strippedness of the step-4 output -/

theorem stripDS_head? {s : List Char} {c : Char}
    (h : (stripDS s).head? = some c) : dotSpace c = false := by
  unfold stripDS at h
  rw [← List.getLast?_reverse, List.reverse_reverse] at h
  obtain ⟨w, hw⟩ := List.dropWhile_suffix (l := (s.dropWhile dotSpace).reverse) dotSpace
  have hu : (s.dropWhile dotSpace).head? = some c := by
    rw [← List.getLast?_reverse, ← hw, List.getLast?_append, h]
    rfl
  exact dropWhile_head?_false hu

theorem stripDS_getLast? {s : List Char} {c : Char}
    (h : (stripDS s).getLast? = some c) : dotSpace c = false := by
  unfold stripDS at h
  rw [List.getLast?_reverse] at h
  exact dropWhile_head?_false h

theorem stripDS_eq_self {s : List Char}
    (hh : ∀ c, s.head? = some c → dotSpace c = false)
    (hl : ∀ c, s.getLast? = some c → dotSpace c = false) :
    stripDS s = s := by
  unfold stripDS
  rw [dropWhile_eq_self_of_head hh]
  have : s.reverse.dropWhile dotSpace = s.reverse := by
    apply dropWhile_eq_self_of_head
    intro c hc
    rw [List.head?_reverse] at hc
    exact hl c hc
  rw [this, List.reverse_reverse]

/-! ### Safety and size of the sanitized name -/

theorem file_prefix_safe : ∀ c ∈ "file_".toList, safeChar c = true := by decide

theorem unnamed_file_safe : ∀ c ∈ "unnamed_file".toList, safeChar c = true := by decide

theorem safeChar_reservedStep {s : List Char} (h : ∀ c ∈ s, safeChar c = true) :
    ∀ c ∈ reservedStep s, safeChar c = true := by
  unfold reservedStep
  by_cases hr : reservedNames.contains (upperList (pyStem s)) = true
  · rw [if_pos hr]
    intro c hc
    rw [List.mem_append] at hc
    cases hc with
    | inl hc => exact file_prefix_safe c hc
    | inr hc => exact h c hc
  · rw [if_neg hr]
    exact h

theorem safeChar_truncStep {s : List Char} (h : ∀ c ∈ s, safeChar c = true) :
    ∀ c ∈ truncStep s, safeChar c = true := by
  unfold truncStep
  by_cases hl : 255 < s.length
  · rw [if_pos hl]
    intro c hc
    rw [List.mem_append] at hc
    cases hc with
    | inl hc => exact h c (mem_of_mem_pyStem (List.take_subset _ _ hc))
    | inr hc => exact h c (mem_of_mem_pySuffix hc)
  · rw [if_neg hl]
    exact h

theorem safeChar_fallbackStep {s : List Char} (h : ∀ c ∈ s, safeChar c = true) :
    ∀ c ∈ fallbackStep s, safeChar c = true := by
  unfold fallbackStep
  by_cases he : s.isEmpty = true
  · rw [if_pos he]
    exact unnamed_file_safe
  · rw [if_neg he]
    exact h

theorem safeChar_sanitize (x : List Char) : ∀ c ∈ sanitize x, safeChar c = true := by
  unfold sanitize sanitizePreTrunc
  exact safeChar_fallbackStep (safeChar_truncStep (safeChar_reservedStep
    (fun c hc => safeChar_sanitizeSteps14 hc)))

theorem sanitize_nonempty (x : List Char) : (sanitize x).isEmpty = false := by
  unfold sanitize fallbackStep
  by_cases he : (truncStep (sanitizePreTrunc x)).isEmpty = true
  · rw [if_pos he]
    decide
  · rw [if_neg he]
    exact Bool.not_eq_true _ ▸ he

theorem sanitize_length_le (x : List Char) :
    (sanitize x).length ≤ max 255 (200 + (pySuffix (sanitizePreTrunc x)).length) := by
  unfold sanitize
  have htr : (truncStep (sanitizePreTrunc x)).length
      ≤ max 255 (200 + (pySuffix (sanitizePreTrunc x)).length) := by
    unfold truncStep
    by_cases hl : 255 < (sanitizePreTrunc x).length
    · rw [if_pos hl]
      have h1 : ((pyStem (sanitizePreTrunc x)).take 200).length ≤ 200 :=
        List.length_take_le _ _
      rw [List.length_append]
      have h2 : 200 + (pySuffix (sanitizePreTrunc x)).length
          ≤ max 255 (200 + (pySuffix (sanitizePreTrunc x)).length) := le_max_right _ _
      omega
    · rw [if_neg hl]
      have : (sanitizePreTrunc x).length ≤ 255 := by omega
      exact le_trans this (le_max_left _ _)
  unfold fallbackStep
  by_cases he : (truncStep (sanitizePreTrunc x)).isEmpty = true
  · rw [if_pos he]
    have : (255 : Nat) ≤ max 255 (200 + (pySuffix (sanitizePreTrunc x)).length) :=
      le_max_left _ _
    simp only [List.length]
    omega
  · rw [if_neg he]
    exact htr

/-! ### Identity of the pipeline on already-sanitized names -/

theorem forbidden_false_ne_slash {c : Char} (h : forbiddenChar c = false) :
    (c = '/' : Bool) = false := by
  by_cases hc : c = '/'
  · subst hc
    exfalso
    have : forbiddenChar '/' = true := by decide
    rw [this] at h
    cases h
  · exact decide_eq_false hc

theorem basename_eq_self_of_safe {s : List Char}
    (h : ∀ c ∈ s, forbiddenChar c = false) : basename s = s := by
  unfold basename
  rw [takeWhile_eq_self_of_all, List.reverse_reverse]
  intro c hc
  rw [List.mem_reverse] at hc
  rw [forbidden_false_ne_slash (h c hc)]
  rfl

theorem replaceForbidden_eq_self {s : List Char}
    (h : ∀ c ∈ s, forbiddenChar c = false) : replaceForbidden s = s := by
  unfold replaceForbidden
  apply map_eq_self_of_all
  intro c hc
  rw [if_neg]
  rw [h c hc]
  exact Bool.false_ne_true

theorem removeControl_eq_self {s : List Char}
    (h : ∀ c ∈ s, controlChar c = false) : removeControl s = s := by
  unfold removeControl
  rw [List.filter_eq_self]
  intro c hc
  rw [h c hc]
  rfl

theorem safeChar_split {c : Char} (h : safeChar c = true) :
    forbiddenChar c = false ∧ controlChar c = false := by
  unfold safeChar at h
  constructor
  · cases hf : forbiddenChar c
    · rfl
    · rw [hf] at h; simp at h
  · cases hc : controlChar c
    · rfl
    · rw [hc] at h; simp at h

theorem dotSpace_false_ne_dot {c : Char} (h : dotSpace c = false) :
    (c = '.' : Bool) = false := by
  by_cases hc : c = '.'
  · subst hc
    exfalso
    have : dotSpace '.' = true := by decide
    rw [this] at h
    cases h
  · exact decide_eq_false hc

theorem sanitizeSteps14_eq_self {s : List Char}
    (hsafe : ∀ c ∈ s, safeChar c = true)
    (hh : ∀ c, s.head? = some c → dotSpace c = false)
    (hl : ∀ c, s.getLast? = some c → dotSpace c = false) :
    sanitizeSteps14 s = s := by
  unfold sanitizeSteps14
  rw [basename_eq_self_of_safe (fun c hc => (safeChar_split (hsafe c hc)).1),
    replaceForbidden_eq_self (fun c hc => (safeChar_split (hsafe c hc)).1),
    removeControl_eq_self (fun c hc => (safeChar_split (hsafe c hc)).2),
    stripDS_eq_self hh hl]

/-! ### Behaviour of the stem under the `file_` prefix -/

theorem file_prefix_no_dot : ∀ c ∈ "file_".toList, (c = '.' : Bool) = false := by decide

theorem pyStem_prepend_file {s : List Char}
    (hh : ∀ c, s.head? = some c → (c = '.' : Bool) = false)
    (hl : ∀ c, s.getLast? = some c → (c = '.' : Bool) = false) :
    pyStem ("file_".toList ++ s) = "file_".toList ++ pyStem s := by
  cases hd : splitAtLastDot s with
  | none =>
    have hnd := splitAtLastDot_eq_none hd
    have hnone : splitAtLastDot ("file_".toList ++ s) = none := by
      apply splitAtLastDot_of_no_dot
      intro c hc
      rw [List.mem_append] at hc
      cases hc with
      | inl hc => exact file_prefix_no_dot c hc
      | inr hc => exact hnd c hc
    unfold pyStem
    rw [hnone, hd]
  | some ab =>
    obtain ⟨a, b⟩ := ab
    obtain ⟨hs, hbdot⟩ := splitAtLastDot_eq_some hd
    have ha : a ≠ [] := by
      intro hae
      subst hae
      rw [List.nil_append] at hs
      have := hh '.' (by rw [hs]; rfl)
      simp at this
    have hb : b ≠ [] := by
      intro hbe
      subst hbe
      have hlast : s.getLast? = some '.' := by
        rw [hs, List.getLast?_append]
        rfl
      have := hl '.' hlast
      simp at this
    have haE : a.isEmpty = false := List.isEmpty_eq_false.mpr ha
    have hbE : b.isEmpty = false := List.isEmpty_eq_false.mpr hb
    have hsplit2 : splitAtLastDot ("file_".toList ++ s) = some ("file_".toList ++ a, b) := by
      rw [hs, ← List.append_assoc]
      exact splitAtLastDot_spec_eq hbdot
    have hfaE : ("file_".toList ++ a).isEmpty = false := rfl
    unfold pyStem
    rw [hsplit2, hd]
    simp [haE, hbE, hfaE]

/-- Reserved device names are at most four characters long. -/
theorem reserved_length_le : ∀ r ∈ reservedNames, r.length ≤ 4 := by decide

theorem contains_reserved_false_of_long {u : List Char} (h : 5 ≤ u.length) :
    reservedNames.contains u = false := by
  rw [Bool.eq_false_iff]
  intro hc
  rw [List.contains_iff_exists_mem_beq] at hc
  obtain ⟨r, hr, hbeq⟩ := hc
  rw [beq_iff_eq] at hbeq
  have := reserved_length_le r hr
  rw [← hbeq] at this
  omega

theorem head?_file_append (s : List Char) :
    (("file_".toList ++ s)).head? = some 'f' := rfl

theorem getLast?_file_append {s : List Char} (h : s ≠ []) :
    (("file_".toList ++ s)).getLast? = s.getLast? := by
  rw [List.getLast?_append]
  cases hg : s.getLast? with
  | none => exact absurd (List.getLast?_eq_none_iff.mp hg) h
  | some c => rfl

/-- Names that are already fully sanitized, short enough, nonempty and not
reserved are fixed points of `sanitize`. -/
theorem sanitize_fixpoint {y : List Char}
    (hsafe : ∀ c ∈ y, safeChar c = true)
    (hh : ∀ c, y.head? = some c → dotSpace c = false)
    (hl : ∀ c, y.getLast? = some c → dotSpace c = false)
    (hres : reservedNames.contains (upperList (pyStem y)) = false)
    (hlen : y.length ≤ 255)
    (hne : y ≠ []) :
    sanitize y = y := by
  unfold sanitize sanitizePreTrunc
  rw [sanitizeSteps14_eq_self hsafe hh hl]
  unfold reservedStep
  rw [if_neg (by rw [hres]; exact Bool.false_ne_true)]
  unfold truncStep
  rw [if_neg (by omega)]
  unfold fallbackStep
  rw [if_neg (by rw [List.isEmpty_eq_false.mpr hne]; exact Bool.false_ne_true)]

theorem sanitize_unnamed : sanitize ("unnamed_file".toList) = "unnamed_file".toList := by
  decide

/-! ## Claim theorems -/

set_option maxRecDepth 10000

/-- C2, counterexample to the length bound: the input `a.` followed by 255
characters `b` sanitizes to itself — the truncation step keeps the first
200 characters of the stem but the whole 256-character extension — so the
result has 257 characters, exceeding the configured maximum of 255. -/
theorem sanitize_length_over_max :
    (sanitize ('a' :: '.' :: List.replicate 255 'b')).length = 257 := by
  decide

/-- C2 (amended): for every input, `sanitize` is total, its result is
non-empty and free of the characters `< > : " | ? *`, path separators and
control characters, and its length is bounded by
`max 255 (200 + length of the kept extension)` — the configured maximum of
255 holds whenever the extension entering the truncation step has at most
55 characters, but a longer extension is preserved whole, exceeding it. -/
theorem sanitize_total_safe_bounded (x : List Char) :
    (sanitize x).isEmpty = false
    ∧ (sanitize x).all safeChar = true
    ∧ (sanitize x).length ≤ max 255 (200 + (pySuffix (sanitizePreTrunc x)).length) :=
  ⟨sanitize_nonempty x, List.all_eq_true.mpr (safeChar_sanitize x), sanitize_length_le x⟩

/-- C5, counterexample to idempotence: 199 characters `a`, a space, and 100
characters `b` make a 300-character dotless name; truncation keeps its
first 200 characters, ending in the space, and a second sanitization strips
that trailing space, giving a different (199-character) result. -/
theorem sanitize_not_idempotent :
    (sanitize (sanitize (List.replicate 199 'a' ++ ' ' :: List.replicate 100 'b'))
      == sanitize (List.replicate 199 'a' ++ ' ' :: List.replicate 100 'b')) = false := by
  decide

/-- C5 (amended): `sanitize` is idempotent on every input for which the
length-truncation step does not fire, that is, whenever the name produced
by steps 1 to 5 has at most 255 characters; truncation can cut the stem
right after a space or dot, which only a second pass would strip. -/
theorem sanitize_idempotent_of_no_trunc (x : List Char)
    (h : (sanitizePreTrunc x).length ≤ 255) :
    sanitize (sanitize x) = sanitize x := by
  have hsafe : ∀ c ∈ sanitizeSteps14 x, safeChar c = true :=
    fun c hc => safeChar_sanitizeSteps14 hc
  have hhds : ∀ c, (sanitizeSteps14 x).head? = some c → dotSpace c = false :=
    fun c hc => stripDS_head? hc
  have hlds : ∀ c, (sanitizeSteps14 x).getLast? = some c → dotSpace c = false :=
    fun c hc => stripDS_getLast? hc
  by_cases hse : sanitizeSteps14 x = []
  · have hx : sanitize x = "unnamed_file".toList := by
      unfold sanitize sanitizePreTrunc
      rw [hse]
      decide
    rw [hx, sanitize_unnamed]
  · by_cases hr : reservedNames.contains (upperList (pyStem (sanitizeSteps14 x))) = true
    · have hy : sanitizePreTrunc x = "file_".toList ++ sanitizeSteps14 x := by
        unfold sanitizePreTrunc reservedStep
        rw [if_pos hr]
      have hlen : ("file_".toList ++ sanitizeSteps14 x).length ≤ 255 := by
        rw [← hy]
        exact h
      have hne : ("file_".toList ++ sanitizeSteps14 x) ≠ [] := by simp
      have hx : sanitize x = "file_".toList ++ sanitizeSteps14 x := by
        unfold sanitize
        rw [hy]
        unfold truncStep
        rw [if_neg (by omega)]
        unfold fallbackStep
        rw [if_neg (by rw [List.isEmpty_eq_false.mpr hne]; exact Bool.false_ne_true)]
      rw [hx]
      apply sanitize_fixpoint
      · intro c hc
        rw [List.mem_append] at hc
        cases hc with
        | inl hc => exact file_prefix_safe c hc
        | inr hc => exact hsafe c hc
      · intro c hc
        rw [head?_file_append, Option.some.injEq] at hc
        rw [← hc]
        decide
      · intro c hc
        rw [getLast?_file_append hse] at hc
        exact hlds c hc
      · rw [pyStem_prepend_file (s := sanitizeSteps14 x)
          (fun c hc => dotSpace_false_ne_dot (hhds c hc))
          (fun c hc => dotSpace_false_ne_dot (hlds c hc))]
        apply contains_reserved_false_of_long
        unfold upperList
        rw [List.length_map, List.length_append]
        have : ("file_".toList).length = 5 := rfl
        omega
      · exact hlen
      · exact hne
    · rw [Bool.not_eq_true] at hr
      have hy : sanitizePreTrunc x = sanitizeSteps14 x := by
        unfold sanitizePreTrunc reservedStep
        rw [if_neg (by rw [hr]; exact Bool.false_ne_true)]
      have hlen : (sanitizeSteps14 x).length ≤ 255 := by
        rw [← hy]
        exact h
      have hx : sanitize x = sanitizeSteps14 x := by
        unfold sanitize
        rw [hy]
        unfold truncStep
        rw [if_neg (by omega)]
        unfold fallbackStep
        rw [if_neg (by rw [List.isEmpty_eq_false.mpr hse]; exact Bool.false_ne_true)]
      rw [hx]
      exact sanitize_fixpoint hsafe hhds hlds hr hlen hse

/-- C5 witness: a plain short filename satisfies the no-truncation premise
and is a fixed point of a second sanitization. -/
theorem sanitize_idempotent_witness :
    (sanitizePreTrunc ("report.txt".toList)).length ≤ 255
    ∧ sanitize (sanitize ("report.txt".toList)) = sanitize ("report.txt".toList) :=
  ⟨by decide, sanitize_idempotent_of_no_trunc _ (by decide)⟩

/-- C7: whenever the stem of the name produced by sanitization steps 1 to 4,
compared case-insensitively, is one of the reserved device names, the final
sanitized result starts with `file_` — the prefix survives both the
truncation step (which keeps the first 200 stem characters) and the
fallback step. -/
theorem sanitize_reserved_gets_prefix (x : List Char)
    (h : reservedNames.contains (upperList (pyStem (sanitizeSteps14 x))) = true) :
    (sanitize x).take 5 = "file_".toList := by
  have hy : sanitizePreTrunc x = "file_".toList ++ sanitizeSteps14 x := by
    unfold sanitizePreTrunc reservedStep
    rw [if_pos h]
  unfold sanitize
  rw [hy]
  by_cases hlen : 255 < ("file_".toList ++ sanitizeSteps14 x).length
  · unfold truncStep
    rw [if_pos hlen]
    rw [pyStem_prepend_file (s := sanitizeSteps14 x)
      (fun c hc => dotSpace_false_ne_dot (stripDS_head? hc))
      (fun c hc => dotSpace_false_ne_dot (stripDS_getLast? hc))]
    rw [List.take_append_eq_append_take,
      List.take_of_length_le (l := "file_".toList) (by decide)]
    have h195 : 200 - ("file_".toList).length = 195 := by decide
    rw [h195, List.append_assoc]
    unfold fallbackStep
    rw [if_neg (by simp)]
    exact List.take_left' rfl
  · unfold truncStep
    rw [if_neg hlen]
    unfold fallbackStep
    rw [if_neg (by simp)]
    exact List.take_left' rfl

/-- C7 witness: the repository test vector `CON.txt` satisfies the premise
and its sanitized form `file_CON.txt` starts with `file_`. -/
theorem sanitize_reserved_witness :
    reservedNames.contains (upperList (pyStem (sanitizeSteps14 ("CON.txt".toList)))) = true
    ∧ (sanitize ("CON.txt".toList)).take 5 = "file_".toList :=
  ⟨by decide, sanitize_reserved_gets_prefix _ (by decide)⟩

/-- C4, counterexample: an adapter result object whose `text_content`
attribute holds the empty string is reported as a success with empty
content, not as an `EmptyResult` failure — the code only checks
`result and hasattr(result, "text_content")`. -/
theorem convert_empty_text_is_success :
    convertDocument true true (.returns (some ⟨some []⟩)) = ⟨true, some [], none⟩ := rfl

/-- C4 (amended): an adapter exception becomes a conversion failure carrying
the adapter message; a falsy (`None`) result or a result without the text
attribute becomes the `MarkItDown returned empty result` failure; but a
result whose text attribute is present — even the empty string — is
reported as a success carrying that text. -/
theorem convert_failure_modes :
    (∀ msg, convertDocument true true (.raises msg) = ⟨false, none, some msg⟩)
    ∧ convertDocument true true (.returns none)
        = ⟨false, none, some ("MarkItDown returned empty result".toList)⟩
    ∧ convertDocument true true (.returns (some ⟨none⟩))
        = ⟨false, none, some ("MarkItDown returned empty result".toList)⟩
    ∧ ∀ t, convertDocument true true (.returns (some ⟨some t⟩)) = ⟨true, some t, none⟩ :=
  ⟨fun _ => rfl, rfl, rfl, fun _ => rfl⟩

/-- C10: when no output directory is requested — the Python argument is
`None` or the empty string, both falsy — `create_output_path` resolves the
configured default directory and returns it without any containment check,
so it never fails with `PathEscapesRoot`. -/
theorem createOutputPath_default_no_check (cwd : List (List Char))
    (dflt orig : List Char) (existing : List (List Char)) :
    createOutputPath cwd dflt existing orig none
      = .ok ⟨resolveFrom cwd dflt, nextFreeName existing (pyStem (basename orig)) (".md".toList)⟩
    ∧ createOutputPath cwd dflt existing orig (some [])
      = .ok ⟨resolveFrom cwd dflt, nextFreeName existing (pyStem (basename orig)) (".md".toList)⟩ :=
  ⟨rfl, rfl⟩

/-- C3, counterexample: the requested directory `a/../b` contains `..`, yet
its canonical resolution stays inside the working root, so the resolver
returns it successfully instead of failing with `PathEscapesRoot`. -/
theorem outputDir_dotdot_not_escaping :
    containsSub ("a/../b".toList) ("..".toList) = true
    ∧ createOutputPath [['h'], ['u']] ("vystup".toList) [] ("f.txt".toList)
        (some ("a/../b".toList))
      = .ok ⟨[['h'], ['u'], ['b']], "f.md".toList⟩ :=
  ⟨by decide, rfl⟩

/-- C3 (amended): a requested output directory containing `..`, a slash, a
backslash or a drive colon is rejected by batch validation before any
resolution happens — with an invalid-output-directory rejection, not
`PathEscapesRoot` — while the resolver itself fails with `PathEscapesRoot`
exactly when the nonempty requested directory canonically resolves outside
the working root, never silently correcting it. -/
theorem outputDir_rejection_and_containment :
    (∀ d, (containsSub d ("..".toList) || containsSub d ("/".toList)
        || containsSub d ("\\".toList) || containsSub d (":".toList)) = true →
      (validateOutputDir (some d)).isSome = true)
    ∧ (∀ cwd dflt existing orig d, d.isEmpty = false →
        ((createOutputPath cwd dflt existing orig (some d) = .error .pathEscapesRoot)
          ↔ isPfxComp cwd (resolveFrom cwd d) = false)) := by
  constructor
  · intro d hd
    have hne : d ≠ [] := by
      intro he
      subst he
      exact absurd hd (by decide)
    have heq : validateOutputDir (some d)
        = (if d.isEmpty then none
          else if maxOutputDirLength < d.length then some BatchError.outputDirTooLong
          else
            match forbiddenOutputDirPatterns.find? (fun p => containsSub d p) with
            | some p => some (BatchError.outputDirForbiddenPattern p)
            | none =>
              if (stripSpaces d).head? = some '.' then some BatchError.outputDirStartsWithDot
              else none) := rfl
    rw [heq, if_neg (by rw [List.isEmpty_eq_false.mpr hne]; exact Bool.false_ne_true)]
    by_cases hlen : maxOutputDirLength < d.length
    · rw [if_pos hlen]
      rfl
    · rw [if_neg hlen]
      cases hfind : forbiddenOutputDirPatterns.find? (fun p => containsSub d p) with
      | some p => rfl
      | none =>
        exfalso
        rw [List.find?_eq_none] at hfind
        simp only [Bool.or_eq_true] at hd
        rcases hd with ((h1 | h2) | h3) | h4
        · exact hfind _ (by decide) h1
        · exact hfind _ (by decide) h2
        · exact hfind _ (by decide) h3
        · exact hfind _ (by decide) h4
  · intro cwd dflt existing orig d hde
    have heq : createOutputPath cwd dflt existing orig (some d)
        = (if d.isEmpty then
            Except.ok ⟨resolveFrom cwd dflt, nextFreeName existing (pyStem (basename orig)) (".md".toList)⟩
          else if isPfxComp cwd (resolveFrom cwd d) then
            Except.ok ⟨resolveFrom cwd d, nextFreeName existing (pyStem (basename orig)) (".md".toList)⟩
          else Except.error PathError.pathEscapesRoot) := rfl
    rw [heq, if_neg (by rw [hde]; exact Bool.false_ne_true)]
    by_cases hp : isPfxComp cwd (resolveFrom cwd d) = true
    · rw [if_pos hp]
      constructor
      · intro hcon
        exact Except.noConfusion hcon
      · intro hfalse
        rw [hp] at hfalse
        cases hfalse
    · rw [Bool.not_eq_true] at hp
      rw [if_neg (by rw [hp]; exact Bool.false_ne_true)]
      constructor
      · intro _
        exact hp
      · intro _
        rfl

/-- C3 witness: `a/../b` is caught by batch validation, and the escaping
directory `../x` makes the resolver fail with `PathEscapesRoot`. -/
theorem outputDir_rejection_witness :
    ((containsSub ("a/../b".toList) ("..".toList) || containsSub ("a/../b".toList) ("/".toList)
        || containsSub ("a/../b".toList) ("\\".toList)
        || containsSub ("a/../b".toList) (":".toList)) = true
      ∧ (validateOutputDir (some ("a/../b".toList))).isSome = true)
    ∧ (("../x".toList).isEmpty = false
      ∧ createOutputPath [['h']] ("v".toList) [] ("f.txt".toList) (some ("../x".toList))
          = .error .pathEscapesRoot) :=
  ⟨⟨by decide, outputDir_rejection_and_containment.1 _ (by decide)⟩,
   ⟨by decide, (outputDir_rejection_and_containment.2 [['h']] _ [] _ _ (by decide)).mpr
      (by decide)⟩⟩

/-- C6: the collision loop returns a name that is not among the existing
entries; running it again after adding that name yields a different name;
and with `document.md` already present, `document` resolves to
`document_1.md`. -/
theorem collision_name_free (names : List (List Char)) (stem ext : List Char) :
    names.contains (nextFreeName names stem ext) = false
    ∧ ((nextFreeName (nextFreeName names stem ext :: names) stem ext)
        == nextFreeName names stem ext) = false
    ∧ nextFreeName ["document.md".toList] ("document".toList) (".md".toList)
        = "document_1.md".toList := by
  refine ⟨nextFreeName_not_mem names stem ext, ?_, by decide⟩
  rw [beq_eq_false_iff_ne]
  intro he
  have h2 := nextFreeName_not_mem_prop (nextFreeName names stem ext :: names) stem ext
  rw [he] at h2
  exact h2 (List.mem_cons_self _ _)

theorem not_mem_removePath (fs : List (List Char)) (p : List Char) :
    p ∉ removePath fs p := by
  intro hq
  unfold removePath at hq
  rw [List.mem_filter] at hq
  have h2 := hq.2
  simp at h2

theorem contains_removePath (fs : List (List Char)) (p : List Char) :
    (removePath fs p).contains p = false := by
  rw [Bool.eq_false_iff]
  intro hc
  rw [List.contains_iff_exists_mem_beq] at hc
  obtain ⟨q, hq, hbeq⟩ := hc
  rw [beq_iff_eq] at hbeq
  subst hbeq
  exact not_mem_removePath fs p hq

/-- C8: the scoped staging of `temporary_file_async` propagates the body
exit — normal, raised or cancelled — unchanged to the caller, the staged
file is gone from the filesystem afterwards whenever its removal does not
itself fail, and the warning is logged only when the removal failed. -/
theorem temp_scope_cleanup (fs0 : List (List Char)) (raw : List Char)
    (body : List Char → List (List Char) → BodyExit × List (List Char))
    (removeFails : Bool) :
    (temporaryFileScope fs0 raw body removeFails).1
      = (body (savedFilename fs0 raw) (savedFilename fs0 raw :: fs0)).1
    ∧ (removeFails = false →
        ((temporaryFileScope fs0 raw body removeFails).2.1).contains (savedFilename fs0 raw)
          = false)
    ∧ ((temporaryFileScope fs0 raw body removeFails).2.2 = true → removeFails = true) := by
  rcases hb : body (savedFilename fs0 raw) (savedFilename fs0 raw :: fs0) with ⟨exit, fs2⟩
  by_cases hm : savedFilename fs0 raw ∈ fs2
  · cases removeFails with
    | true => simp [temporaryFileScope, cleanupTempFile, hb, hm]
    | false => simp [temporaryFileScope, cleanupTempFile, hb, hm, not_mem_removePath]
  · simp [temporaryFileScope, cleanupTempFile, hb, hm]

/-- C8 witness: a cancelled body with working removal: the exit is the
cancellation and the staged file is gone. -/
theorem temp_scope_cleanup_witness :
    (temporaryFileScope [] ("t.txt".toList) (fun _ fs => (BodyExit.cancelled, fs)) false).1
      = BodyExit.cancelled
    ∧ ((temporaryFileScope [] ("t.txt".toList)
          (fun _ fs => (BodyExit.cancelled, fs)) false).2.1).contains
        (savedFilename [] ("t.txt".toList)) = false :=
  ⟨(temp_scope_cleanup [] ("t.txt".toList) (fun _ fs => (BodyExit.cancelled, fs)) false).1,
   (temp_scope_cleanup [] ("t.txt".toList) (fun _ fs => (BodyExit.cancelled, fs)) false).2.1 rfl⟩

theorem uploadFiles_ok_results {files : List UploadMeta} {odir : Option (List Char)}
    {outcomes : Nat → TaskOutcome} {resp : BatchResponse}
    (h : uploadFiles files odir outcomes = .ok resp) :
    resp.results = files.enum.map (fun p => assembleOne p.2 (outcomes p.1)) := by
  unfold uploadFiles at h
  split at h
  · cases h
  · split at h
    · cases h
    · split at h
      · cases h
      · split at h
        · cases h
        · injection h with h2
          rw [← h2]

theorem uploadFiles_ok_length {files : List UploadMeta} {odir : Option (List Char)}
    {outcomes : Nat → TaskOutcome} {resp : BatchResponse}
    (h : uploadFiles files odir outcomes = .ok resp) :
    resp.results.length = files.length := by
  rw [uploadFiles_ok_results h, List.length_map, List.enum_length]

theorem uploadFiles_ok_getElem? {files : List UploadMeta} {odir : Option (List Char)}
    {outcomes : Nat → TaskOutcome} {resp : BatchResponse}
    (h : uploadFiles files odir outcomes = .ok resp) (i : Nat) (hi : i < files.length) :
    resp.results[i]? = some (assembleOne (files.get ⟨i, hi⟩) (outcomes i)) := by
  rw [uploadFiles_ok_results h, List.getElem?_map]
  have hien : i < files.enum.length := by
    rw [List.enum_length]
    exact hi
  rw [List.getElem?_eq_getElem hien, List.getElem_enum]
  simp [List.get_eq_getElem]

/-- C1: whenever the coordinator accepts a batch — batch validation passed
and an `ok` response is produced — the response carries exactly one
`FileResult` per input file, and the result at position `i` is the one
assembled from the i-th file and the i-th worker outcome (a worker
exception included), so order is preserved whatever the per-file
outcomes. -/
theorem upload_preserves_batch (files : List UploadMeta) (odir : Option (List Char))
    (outcomes : Nat → TaskOutcome) (resp : BatchResponse)
    (h : uploadFiles files odir outcomes = .ok resp) :
    resp.results.length = files.length
    ∧ ∀ i (hi : i < files.length),
        resp.results[i]? = some (assembleOne (files.get ⟨i, hi⟩) (outcomes i)) :=
  ⟨uploadFiles_ok_length h, fun i hi => uploadFiles_ok_getElem? h i hi⟩

/-- C1 witness: a one-file batch whose worker raises still produces exactly
one result. -/
theorem upload_preserves_batch_witness :
    (⟨[⟨some ("a.txt".toList), false,
        some ("Unexpected error during concurrent processing: x".toList), none⟩], 1, 0, 1⟩ :
      BatchResponse).results.length
      = ([⟨some ("a.txt".toList), some 5⟩] : List UploadMeta).length :=
  (upload_preserves_batch [⟨some ("a.txt".toList), some 5⟩] none
    (fun _ => .exn ("x".toList)) _ rfl).1

/-- C9: in every state reachable from a batch of `n` tasks under the
semaphore of capacity `min(max_concurrent_files, n)`, at most that many
workers hold a slot simultaneously — whatever the interleaving of starts
and completions — and the gathered results are reassembled in the original
input order. -/
theorem pool_bounded_and_ordered :
    (∀ n s, PoolReachable (semaphoreCapacity n) n s → s.running ≤ semaphoreCapacity n)
    ∧ (∀ (files : List UploadMeta) (odir : Option (List Char))
        (outcomes : Nat → TaskOutcome) (resp : BatchResponse),
        uploadFiles files odir outcomes = .ok resp →
        ∀ i (hi : i < files.length),
          resp.results[i]? = some (assembleOne (files.get ⟨i, hi⟩) (outcomes i))) := by
  constructor
  · intro n s h
    unfold PoolReachable at h
    induction h with
    | refl => exact Nat.zero_le _
    | tail _ hstep ih =>
      cases hstep with
      | start p r d hp hr => exact hr
      | finish p r d hrpos =>
        have ihr : r ≤ semaphoreCapacity n := ih
        show r - 1 ≤ semaphoreCapacity n
        omega
  · intro files odir outcomes resp h i hi
    exact uploadFiles_ok_getElem? h i hi

/-- C9 witness: with five tasks the capacity is four; one started task is a
reachable state within the bound, and a concrete accepted batch is returned
in input order. -/
theorem pool_bounded_witness :
    ((⟨4, 1, 0⟩ : PoolState).running ≤ semaphoreCapacity 5)
    ∧ (⟨[⟨some ("a.txt".toList), false,
          some ("Unexpected error during concurrent processing: x".toList), none⟩], 1, 0, 1⟩ :
        BatchResponse).results[0]?
        = some (assembleOne ⟨some ("a.txt".toList), some 5⟩ (.exn ("x".toList))) :=
  ⟨pool_bounded_and_ordered.1 5 ⟨4, 1, 0⟩
      (Relation.ReflTransGen.single (PoolStep.start 5 0 0 (by decide) (by decide))),
   pool_bounded_and_ordered.2 [⟨some ("a.txt".toList), some 5⟩] none
      (fun _ => .exn ("x".toList)) _ rfl 0 (by decide)⟩

end MDitD
